import Mathlib

/- Shallow embedding of the perceptron-based cache replacement policy
   implemented in src/replacement/pcn/pcn.cc (the complete draft; the
   other file, lru.cc, is an abandoned draft that does not compile, as the
   accompanying design notes record).  Machine integers are modelled as
   Nat / Int; every place where C++ overflow or truncation could matter is
   annotated at the definition it concerns. -/

namespace Pcn

set_option maxRecDepth 16000

/-- Constant INITIAL_TABLE_SIZE from pcn.cc line 15. -/
def INITIAL_TABLE_SIZE : Nat := 256

/-- Constant MAX_WEIGHT from pcn.cc line 16: saturating-counter maximum. -/
def MAX_WEIGHT : Int := 31

/-- Constant MIN_WEIGHT from pcn.cc line 17: saturating-counter minimum. -/
def MIN_WEIGHT : Int := -32

/-- Constant NUM_WAY from pcn.cc line 124. -/
def NUM_WAY : Nat := 16

/-- Constant NUM_SET from pcn.cc line 123. -/
def NUM_SET : Nat := 2048

/-- Block size in bytes.  Modelled from the spec: BLOCK_SIZE comes from the
    ChampSim headers (cache.h), which are outside src/; ChampSim uses
    64-byte cache blocks.  Only the stored value full_addr % BLOCK_SIZE
    depends on it and no claim depends on the particular constant. -/
def BLOCK_SIZE : Nat := 64

/-- Largest int32 value, the initial value of min_yout in find_victim
    (pcn.cc line 166). -/
def INT32_MAX : Int := 2147483647

/-- Largest uint64 value, the initial value of oldest_timestamp in
    find_lru_victim (pcn.cc line 143). -/
def UINT64_MAX : Nat := 2 ^ 64 - 1

/-- The confidence threshold local to find_victim (pcn.cc line 167). -/
def confidence_threshold : Int := 10

/-- The five feature names used as keys of the predictor maps.  The C++
    code keys its maps by the strings "pc", "setIndex", "is_write",
    "last_access" and "block_offset"; exactly these five keys are ever
    used (constructor lines 54-58 and extract_features lines 130-138), so
    a closed enumeration is a faithful model of the key space. -/
inductive Feature where
  | pc
  | setIndex
  | is_write
  | last_access
  | block_offset
deriving DecidableEq

/-- Enumeration of the five map keys; folds over this list model the C++
    range-for loops over the five-entry maps.  Iteration order of an
    unordered_map is unspecified; every fold below updates the five keys
    independently (or forms a sum, which is order-independent), so fixing
    this order is harmless. -/
def Feature.all : List Feature :=
  [.pc, .setIndex, .is_write, .last_access, .block_offset]

/-- WeightTable (pcn.cc lines 21-44): a vector of int8 saturating counters
    plus its size.  Counters are modelled as Int: every value the program
    stores is either 0 or a result of clamping into [-32, 31], so no int8
    wrap-around is reachable.  The alternative random-seeding constructor
    WeightTable(int) on lines 29-34 is dead code in this program (it is
    never called) and is not modelled. -/
structure WeightTable where
  weights : List Int
  size : Nat
deriving DecidableEq

/-- Default constructor WeightTable() (pcn.cc line 26): a vector of
    INITIAL_TABLE_SIZE zeros, with size recorded alongside. -/
def WeightTable.initial : WeightTable :=
  { weights := List.replicate INITIAL_TABLE_SIZE 0, size := INITIAL_TABLE_SIZE }

/-- Loop body of WeightTable::resize (pcn.cc line 39): write weights[i]
    into slot i % new_size of the new vector.  The vector read weights[i]
    is modelled with getD default 0; it is in bounds whenever
    weights.length = size, which holds in every reachable state. -/
def copyStep (w : List Int) (new_size : Nat) (acc : List Int) (i : Nat) : List Int :=
  acc.set (i % new_size) (w.getD i 0)

/-- Member WeightTable::resize (pcn.cc lines 36-43): allocate new_size
    zeros, then for i = 0 .. size-1 in ascending order write weights[i]
    into slot i % new_size (on shrink later writes overwrite earlier
    ones), finally install the new vector and the new size. -/
def WeightTable.resize (t : WeightTable) (new_size : Nat) : WeightTable :=
  { weights :=
      (List.range t.size).foldl (copyStep t.weights new_size)
        (List.replicate new_size 0),
    size := new_size }

/-- PerceptronPredictor state (pcn.cc lines 47-64): one weight table per
    feature name and one usage counter per feature name.  feature_tables
    is an unordered_map whose operator[] inserts a default-constructed
    table for a missing key, so it is modelled as a partial map.
    table_usage_count is an unordered_map of int that is observed only
    through operator[] (which zero-initialises a missing key), is never
    erased and never iterated, so a total map with default 0 is an exact
    observational model; its values are only ever incremented from 0 or
    reset, hence Nat. -/
structure PerceptronPredictor where
  feature_tables : Feature → Option WeightTable
  table_usage_count : Feature → Nat

/-- Constructor PerceptronPredictor() (pcn.cc lines 52-59): all five
    feature tables are installed with the default WeightTable(); the usage
    map starts empty, so every key reads as 0. -/
def PerceptronPredictor.start : PerceptronPredictor :=
  { feature_tables := fun _ => some WeightTable.initial,
    table_usage_count := fun _ => 0 }

/-- Semantics of feature_tables[f] (unordered_map operator[], used on
    pcn.cc lines 76 and 90): return the stored table, or insert and return
    a default-constructed table when the key is missing. -/
def getTable (P : PerceptronPredictor) (f : Feature) :
    WeightTable × PerceptronPredictor :=
  match P.feature_tables f with
  | some t => (t, P)
  | none =>
      (WeightTable.initial,
       { P with feature_tables :=
           fun g => if g = f then some WeightTable.initial else P.feature_tables g })

/-- Store table t at key f (the write-back through the reference obtained
    from operator[]). -/
def setTable (P : PerceptronPredictor) (f : Feature) (t : WeightTable) :
    PerceptronPredictor :=
  { P with feature_tables := fun g => if g = f then some t else P.feature_tables g }

/-- The weight table stored at key f, or the default table when the key is
    missing (the value operator[] would insert). -/
def tableOf (P : PerceptronPredictor) (f : Feature) : WeightTable :=
  (P.feature_tables f).getD WeightTable.initial

/-- Function hash_feature (pcn.cc lines 67-69): (feature XOR (pc AND
    0xFFFF)) mod table_size.  uint64 values are modelled as Nat; all
    feature values and program counters in the program are below 2^64,
    where Nat xor and mod agree with the C++ unsigned arithmetic. -/
def hash_feature (feature pcv table_size : Nat) : Nat :=
  (feature ^^^ (pcv &&& 65535)) % table_size

/-- Truncation toward zero of the IEEE-754 binary32 product
    LEAKY_RELU_ALPHA * yout (pcn.cc line 82) on the reachable domain
    -160 <= yout <= 0 (yout is a sum of five int8 counters that are in
    [-32, 31] in every reachable state).  The float literal 0.01f equals
    exactly 10737418 / 2^30.  On that domain the exact product has
    magnitude at most 1.6, and the correctly rounded (nearest-even) float
    product has magnitude at least 1 exactly when the exact magnitude is
    at least 1 - 2^-25, that is when yout * 10737418 <= -(2^30 - 2^5);
    truncating toward zero then yields -1, and otherwise 0. -/
def leakyScaled (yout : Int) : Int :=
  if yout * 10737418 ≤ -(2 ^ 30 - 2 ^ 5) then -1 else 0

/-- The leaky-ReLU step of compute_prediction (pcn.cc line 82): a positive
    sum is returned unchanged, a non-positive sum is scaled by 0.01f and
    truncated to int. -/
def leakyRelu (yout : Int) : Int :=
  if yout > 0 then yout else leakyScaled yout

/-- Member PerceptronPredictor::compute_prediction (pcn.cc lines 72-83):
    sum the hashed-in counter of every feature in the given feature map,
    threading the operator[] insertion effect of line 76 through the loop,
    then apply the leaky ReLU.  The int32 accumulator cannot overflow: a
    sum of five int8 values has magnitude at most 640.  The vector read on
    line 78 is modelled with getD default 0; it is in bounds in every
    reachable state (weights.length = size and the hash is below size). -/
def compute_prediction (P : PerceptronPredictor) (features : Feature → Nat)
    (pcv : Nat) : Int × PerceptronPredictor :=
  let r := Feature.all.foldl
    (fun acc f =>
      let tp := getTable acc.2 f
      (acc.1 + tp.1.weights.getD (hash_feature (features f) pcv tp.1.size) 0, tp.2))
    ((0 : Int), P)
  (leakyRelu r.1, r.2)

/-- Pure value of the summation loop of compute_prediction: when all five
    keys are present (which the constructor establishes and every
    operation preserves) the loop has no state effect and computes this
    sum. -/
def rawSum (P : PerceptronPredictor) (features : Feature → Nat) (pcv : Nat) : Int :=
  Feature.all.foldl
    (fun acc f =>
      acc + (tableOf P f).weights.getD
        (hash_feature (features f) pcv (tableOf P f).size) 0) 0

/-- Function std::clamp(v, lo, hi) as used on pcn.cc line 93. -/
def clampInt (v lo hi : Int) : Int :=
  if v < lo then lo else if hi < v then hi else v

/-- Loop body of PerceptronPredictor::update_weights (pcn.cc lines 89-95):
    adjustment is -1 when is_correct and +1 otherwise; clamp-add the
    adjustment into the hashed slot of this feature's table (through the
    operator[] reference) and increment this feature's usage counter.  The
    int8 store on line 93 is exact because the clamped value fits in
    int8. -/
def updateStep (features : Feature → Nat) (pcv : Nat) (is_correct : Bool)
    (Q : PerceptronPredictor) (f : Feature) : PerceptronPredictor :=
  let adjustment : Int := if is_correct then -1 else 1
  let tp := getTable Q f
  let idx := hash_feature (features f) pcv tp.1.size
  let w2 := tp.1.weights.set idx
    (clampInt (tp.1.weights.getD idx 0 + adjustment) MIN_WEIGHT MAX_WEIGHT)
  let t2 : WeightTable := { tp.1 with weights := w2 }
  let Q2 := setTable tp.2 f t2
  { Q2 with
      table_usage_count :=
        fun g => if g = f then tp.2.table_usage_count g + 1
                 else tp.2.table_usage_count g }

/-- Member PerceptronPredictor::update_weights, the loop over the feature
    map with the body above.  The C++ computes adjustment once before the
    loop; the step recomputes the same value, which is unobservable. -/
def update_weights (P : PerceptronPredictor) (features : Feature → Nat)
    (pcv : Nat) (is_correct : Bool) : PerceptronPredictor :=
  Feature.all.foldl (updateStep features pcv is_correct) P

/-- The per-table effect of one update_weights iteration on the table it
    touches: clamp-add the adjustment into the hashed slot. -/
def updatedTable (t : WeightTable) (v pcv : Nat) (b : Bool) : WeightTable :=
  let idx := hash_feature v pcv t.size
  let w2 := t.weights.set idx
    (clampInt (t.weights.getD idx 0 + (if b then -1 else 1)) MIN_WEIGHT MAX_WEIGHT)
  { t with weights := w2 }

/-- One entry of the dynamic_resize loop body (pcn.cc lines 101-105): grow
    to twice the size when the usage counter exceeds 10 * size, else
    shrink to half when the usage counter is under size / 10 (integer
    division) and the size is above the initial size. -/
def resizeOne (t : WeightTable) (usage : Nat) : WeightTable :=
  if usage > t.size * 10 then t.resize (t.size * 2)
  else if usage < t.size / 10 ∧ t.size > INITIAL_TABLE_SIZE then t.resize (t.size / 2)
  else t

/-- Loop body of PerceptronPredictor::dynamic_resize (pcn.cc lines
    100-108): maybe resize this entry's table according to its usage
    counter, and reset that usage counter to zero.  Absent keys are
    untouched because the C++ loop ranges over the map's entries. -/
def resizeStep (Q : PerceptronPredictor) (f : Feature) : PerceptronPredictor :=
  match Q.feature_tables f with
  | some t =>
      { feature_tables :=
          fun g => if g = f then some (resizeOne t (Q.table_usage_count f))
                   else Q.feature_tables g,
        table_usage_count := fun g => if g = f then 0 else Q.table_usage_count g }
  | none => Q

/-- Member PerceptronPredictor::dynamic_resize, the loop over the entries
    of feature_tables with the body above. -/
def dynamic_resize (P : PerceptronPredictor) : PerceptronPredictor :=
  Feature.all.foldl resizeStep P

/-- BlockMetadata (pcn.cc lines 115-120), with the C++ member initialisers
    as Lean default values. -/
structure BlockMetadata where
  pc : Nat := 0
  is_write : Bool := false
  last_access_timestamp : Nat := 0
  block_offset : Nat := 0
deriving DecidableEq

/-- The global metadata_array (pcn.cc line 127) modelled as a total
    function from set and way indices; the program only ever touches
    indices below NUM_SET and NUM_WAY. -/
abbrev MetaArray : Type := Nat → Nat → BlockMetadata

/-- The zero-initialised global array (C++ static initialisation of
    metadata_array). -/
def MetaArray.start : MetaArray := fun _ _ => {}

/-- Function extract_features (pcn.cc lines 130-138): the five features
    derived from a line's metadata and its set index. -/
def extract_features (m : BlockMetadata) (setIdx : Nat) : Feature → Nat
  | .pc => m.pc
  | .setIndex => setIdx
  | .is_write => if m.is_write then 1 else 0
  | .last_access => m.last_access_timestamp
  | .block_offset => m.block_offset

/-- Loop body of find_lru_victim (pcn.cc lines 145-152): keep the smallest
    last_access_timestamp seen so far (initially UINT64_MAX) and the first
    way attaining it. -/
def lruStep (meta : MetaArray) (setIdx : Nat) (acc : Nat × Nat) (way : Nat) :
    Nat × Nat :=
  if (meta setIdx way).last_access_timestamp < acc.2
  then (way, (meta setIdx way).last_access_timestamp)
  else acc

/-- Member find_lru_victim, the loop over the ways with the body above,
    returning the victim component. -/
def find_lru_victim (meta : MetaArray) (setIdx : Nat) : Nat :=
  ((List.range NUM_WAY).foldl (lruStep meta setIdx) (0, UINT64_MAX)).1

/-- Loop body of the scan in find_victim (pcn.cc lines 169-178): compute
    this way's prediction (threading predictor state through the call)
    and record the way when its score is below both the running minimum
    and the confidence threshold. -/
def victimStep (meta : MetaArray) (setIdx ip : Nat)
    (acc : Nat × Int × PerceptronPredictor) (way : Nat) :
    Nat × Int × PerceptronPredictor :=
  let s := compute_prediction acc.2.2 (extract_features (meta setIdx way) setIdx) ip
  if s.1 < acc.2.1 ∧ s.1 < confidence_threshold
  then (way, s.1, s.2)
  else (acc.1, acc.2.1, s.2)

/-- The scanning loop of find_victim over the ways, with the body above. -/
def victimScan (P : PerceptronPredictor) (meta : MetaArray) (setIdx ip : Nat) :
    Nat × Int × PerceptronPredictor :=
  (List.range NUM_WAY).foldl (victimStep meta setIdx ip) (0, INT32_MAX, P)

/-- Member CACHE::repl_replacementDpcn_find_victim (pcn.cc lines 163-185).
    The parameters the body never reads (triggering_cpu, instr_id,
    current_set, full_addr, type) are omitted.  Returns the chosen way
    together with the predictor state left behind by the
    compute_prediction calls. -/
def find_victim (P : PerceptronPredictor) (meta : MetaArray) (setIdx ip : Nat) :
    Nat × PerceptronPredictor :=
  let r := victimScan P meta setIdx ip
  if r.2.1 ≥ confidence_threshold
  then (find_lru_victim meta setIdx, r.2.2)
  else (r.1, r.2.2)

/-- Access types from the ChampSim header (outside src/); pcn.cc only
    observes equality of the cast type with access_type::WRITE on
    line 191. -/
inductive AccessType where
  | LOAD
  | RFO
  | PREFETCH
  | WRITE
  | TRANSLATION
deriving DecidableEq

/-- The metadata record written by update_replacement_state (pcn.cc lines
    189-193): last-touching ip, write flag, current cycle, and the block
    offset of the accessed address. -/
def touchMeta (ip : Nat) (ty : AccessType) (full_addr cc : Nat) : BlockMetadata :=
  { pc := ip,
    is_write := decide (ty = AccessType.WRITE),
    last_access_timestamp := cc,
    block_offset := full_addr % BLOCK_SIZE }

/-- Member CACHE::repl_replacementDpcn_update_replacement_state (pcn.cc
    lines 187-200): write the touched line's metadata, extract features
    from the freshly written record, update the weights with
    is_correct = hit (line 196), then run the resize evaluation.
    current_cycle is the CACHE member supplied by the simulator; hit is
    the uint8 flag converted to bool. -/
def update_replacement_state (P : PerceptronPredictor) (meta : MetaArray)
    (setIdx wayID full_addr ip : Nat) (ty : AccessType) (hit : Bool)
    (current_cycle : Nat) : PerceptronPredictor × MetaArray :=
  let m := touchMeta ip ty full_addr current_cycle
  let meta2 : MetaArray := fun s w => if s = setIdx ∧ w = wayID then m else meta s w
  let features := extract_features m setIdx
  let is_correct := hit
  (dynamic_resize (update_weights P features ip is_correct), meta2)

/-- All five feature-table keys are present.  The constructor establishes
    this and every operation preserves it; it is the invariant under which
    operator[] lookups have no insertion effect. -/
def allKeys (P : PerceptronPredictor) : Prop :=
  ∀ f, (P.feature_tables f).isSome

/-- Every counter of every present weight table lies in
    [MIN_WEIGHT, MAX_WEIGHT]. -/
def weightsInRange (P : PerceptronPredictor) : Prop :=
  ∀ f t, P.feature_tables f = some t → ∀ x ∈ t.weights, MIN_WEIGHT ≤ x ∧ x ≤ MAX_WEIGHT

/-- Pure per-way prediction score used by the find_victim loop, under the
    all-keys-present invariant. -/
def wayScore (P : PerceptronPredictor) (meta : MetaArray) (setIdx ip way : Nat) : Int :=
  leakyRelu (rawSum P (extract_features (meta setIdx way) setIdx) ip)

/-- State-free form of the find_victim scan step over an abstract per-way
    score function; under the all-keys-present invariant the stateful scan
    computes exactly this. -/
def scanStep (s : Nat → Int) (acc : Nat × Int) (w : Nat) : Nat × Int :=
  if s w < acc.2 ∧ s w < confidence_threshold then (w, s w) else acc

/-- State-free form of the whole find_victim scan. -/
def pureScan (s : Nat → Int) : Nat × Int :=
  (List.range NUM_WAY).foldl (scanStep s) (0, INT32_MAX)

/-- Predictor states reachable from the constructor by any number of
    weight updates (either sign, any feature values) and resize
    evaluations, in any order. -/
inductive ReachableW : PerceptronPredictor → Prop where
  | start : ReachableW PerceptronPredictor.start
  | update : ∀ P features pcv b, ReachableW P →
      ReachableW (update_weights P features pcv b)
  | resize : ∀ P, ReachableW P → ReachableW (dynamic_resize P)

/-- States of the module reachable through the three public entry points,
    starting from the program start state (fresh predictor,
    zero-initialised metadata array). -/
inductive ReachablePub : PerceptronPredictor → MetaArray → Prop where
  | start : ReachablePub PerceptronPredictor.start MetaArray.start
  | reinit : ∀ P meta, ReachablePub P meta →
      ReachablePub PerceptronPredictor.start meta
  | victim : ∀ P meta setIdx ip, ReachablePub P meta →
      ReachablePub (find_victim P meta setIdx ip).2 meta
  | update : ∀ P meta setIdx wayID fa ip ty hit cc, ReachablePub P meta →
      ReachablePub (update_replacement_state P meta setIdx wayID fa ip ty hit cc).1
                   (update_replacement_state P meta setIdx wayID fa ip ty hit cc).2

/-- Fixture: a features map with all five feature values 0 (the features
    of a default metadata record in set 0). -/
def feats0 : Feature → Nat := extract_features {} 0

/-- Fixture: a weight table holding -25 in slot 0 and zeros elsewhere.
    The value -25 is inside the reachable counter range [-32, 31]. -/
def negTable : WeightTable :=
  { weights := (-25 : Int) :: List.replicate 255 0, size := 256 }

/-- Fixture: a predictor whose pc and setIndex tables hold -25 in slot 0,
    so that the five feature reads at index 0 sum to -50. -/
def Pneg : PerceptronPredictor :=
  { feature_tables := fun f =>
      match f with
      | .pc => some negTable
      | .setIndex => some negTable
      | _ => some WeightTable.initial,
    table_usage_count := fun _ => 0 }

/-- Fixture: a metadata array where line (0, 0) has last-access cycle 5
    and every other line is the default record (cycle 0). -/
def metaSkew : MetaArray :=
  fun s w => if s = 0 ∧ w = 0 then { last_access_timestamp := 5 } else {}

/-- Fixture: a metadata record whose last-access cycle is 5. -/
def mRec : BlockMetadata := { last_access_timestamp := 5 }

/-- The constructor installs all five keys. -/
theorem allKeys_start : allKeys PerceptronPredictor.start := fun _ => rfl

/-- Under the all-keys invariant, the stored table at f is recovered by
    tableOf. -/
theorem tables_eq_some (P : PerceptronPredictor) (f : Feature) (h : allKeys P) :
    P.feature_tables f = some (tableOf P f) := by
  obtain ⟨t, ht⟩ := Option.isSome_iff_exists.1 (h f)
  simp [tableOf, ht]

/-- Under the all-keys invariant, operator[] has no insertion effect. -/
theorem getTable_eq (P : PerceptronPredictor) (f : Feature) (h : allKeys P) :
    getTable P f = (tableOf P f, P) := by
  obtain ⟨t, ht⟩ := Option.isSome_iff_exists.1 (h f)
  simp [getTable, tableOf, ht]

/-- Under the all-keys invariant, compute_prediction is the pure
    leaky-rectified sum and leaves the predictor unchanged. -/
theorem compute_prediction_eq (P : PerceptronPredictor) (features : Feature → Nat)
    (pcv : Nat) (h : allKeys P) :
    compute_prediction P features pcv = (leakyRelu (rawSum P features pcv), P) := by
  have hg : ∀ f, getTable P f = (tableOf P f, P) := fun f => getTable_eq P f h
  simp [compute_prediction, rawSum, Feature.all, hg]

/-- Effect of one update_weights iteration on the table map. -/
theorem updateStep_tables (features : Feature → Nat) (pcv : Nat) (b : Bool)
    (Q : PerceptronPredictor) (f : Feature) (h : allKeys Q) (g : Feature) :
    (updateStep features pcv b Q f).feature_tables g =
      if g = f then some (updatedTable (tableOf Q f) (features f) pcv b)
      else Q.feature_tables g := by
  simp [updateStep, getTable_eq Q f h, setTable, updatedTable]

/-- Effect of one update_weights iteration on the usage counters. -/
theorem updateStep_usage (features : Feature → Nat) (pcv : Nat) (b : Bool)
    (Q : PerceptronPredictor) (f : Feature) (h : allKeys Q) (g : Feature) :
    (updateStep features pcv b Q f).table_usage_count g =
      if g = f then Q.table_usage_count g + 1 else Q.table_usage_count g := by
  simp [updateStep, getTable_eq Q f h, setTable]

/-- One update_weights iteration preserves the all-keys invariant. -/
theorem updateStep_allKeys (features : Feature → Nat) (pcv : Nat) (b : Bool)
    (Q : PerceptronPredictor) (f : Feature) (h : allKeys Q) :
    allKeys (updateStep features pcv b Q f) := by
  intro g
  rw [updateStep_tables features pcv b Q f h g]
  by_cases hg : g = f
  · simp [hg]
  · rw [if_neg hg]; exact h g

/-- Effect of one dynamic_resize iteration on the table map. -/
theorem resizeStep_tables (Q : PerceptronPredictor) (f : Feature)
    (h : allKeys Q) (g : Feature) :
    (resizeStep Q f).feature_tables g =
      if g = f then some (resizeOne (tableOf Q f) (Q.table_usage_count f))
      else Q.feature_tables g := by
  rw [resizeStep, tables_eq_some Q f h]

/-- Effect of one dynamic_resize iteration on the usage counters. -/
theorem resizeStep_usage (Q : PerceptronPredictor) (f : Feature)
    (h : allKeys Q) (g : Feature) :
    (resizeStep Q f).table_usage_count g =
      if g = f then 0 else Q.table_usage_count g := by
  rw [resizeStep, tables_eq_some Q f h]

/-- One dynamic_resize iteration preserves the all-keys invariant. -/
theorem resizeStep_allKeys (Q : PerceptronPredictor) (f : Feature)
    (h : allKeys Q) : allKeys (resizeStep Q f) := by
  intro g
  rw [resizeStep_tables Q f h g]
  by_cases hg : g = f
  · simp [hg]
  · rw [if_neg hg]; exact h g

/-- The update fold preserves the all-keys invariant. -/
theorem update_fold_allKeys (features : Feature → Nat) (pcv : Nat) (b : Bool)
    (l : List Feature) (Q : PerceptronPredictor) (h : allKeys Q) :
    allKeys (l.foldl (updateStep features pcv b) Q) := by
  induction l generalizing Q with
  | nil => exact h
  | cons a ws ih =>
      exact ih _ (updateStep_allKeys features pcv b Q a h)

/-- Keys outside the iterated list are untouched by the update fold. -/
theorem update_fold_frame (features : Feature → Nat) (pcv : Nat) (b : Bool)
    (l : List Feature) (Q : PerceptronPredictor) (h : allKeys Q)
    (f : Feature) (hf : f ∉ l) :
    (l.foldl (updateStep features pcv b) Q).feature_tables f = Q.feature_tables f ∧
    (l.foldl (updateStep features pcv b) Q).table_usage_count f =
      Q.table_usage_count f := by
  induction l generalizing Q with
  | nil => exact ⟨rfl, rfl⟩
  | cons a ws ih =>
      have hfa : f ≠ a := fun e => hf (e ▸ List.mem_cons_self a ws)
      have hfw : f ∉ ws := fun e => hf (List.mem_cons_of_mem a e)
      have h1 := updateStep_allKeys features pcv b Q a h
      obtain ⟨e1, e2⟩ := ih (updateStep features pcv b Q a) h1 hfw
      refine ⟨?_, ?_⟩
      · rw [List.foldl_cons, e1, updateStep_tables features pcv b Q a h f, if_neg hfa]
      · rw [List.foldl_cons, e2, updateStep_usage features pcv b Q a h f, if_neg hfa]

/-- Each key in the iterated (duplicate-free) list is updated exactly
    once by the update fold: its table gets the clamp-add and its usage
    counter the increment. -/
theorem update_fold_hit (features : Feature → Nat) (pcv : Nat) (b : Bool)
    (l : List Feature) (Q : PerceptronPredictor) (h : allKeys Q)
    (hnd : l.Nodup) (f : Feature) (hf : f ∈ l) :
    (l.foldl (updateStep features pcv b) Q).feature_tables f =
      some (updatedTable (tableOf Q f) (features f) pcv b) ∧
    (l.foldl (updateStep features pcv b) Q).table_usage_count f =
      Q.table_usage_count f + 1 := by
  induction l generalizing Q with
  | nil => cases hf
  | cons a ws ih =>
      have h1 := updateStep_allKeys features pcv b Q a h
      rcases List.mem_cons.1 hf with he | hm
      · subst he
        have hfw : f ∉ ws := (List.nodup_cons.1 hnd).1
        obtain ⟨e1, e2⟩ := update_fold_frame features pcv b ws _ h1 f hfw
        refine ⟨?_, ?_⟩
        · rw [List.foldl_cons, e1, updateStep_tables features pcv b Q f h f, if_pos rfl]
        · rw [List.foldl_cons, e2, updateStep_usage features pcv b Q f h f, if_pos rfl]
      · have hfa : f ≠ a := by
          intro e; subst e; exact (List.nodup_cons.1 hnd).1 hm
        have et : tableOf (updateStep features pcv b Q a) f = tableOf Q f := by
          rw [tableOf, updateStep_tables features pcv b Q a h f, if_neg hfa, tableOf]
        have eu : (updateStep features pcv b Q a).table_usage_count f =
            Q.table_usage_count f := by
          rw [updateStep_usage features pcv b Q a h f, if_neg hfa]
        obtain ⟨e1, e2⟩ := ih (updateStep features pcv b Q a) h1 (List.nodup_cons.1 hnd).2 hm
        rw [List.foldl_cons]
        exact ⟨by rw [e1, et], by rw [e2, eu]⟩

/-- The resize fold preserves the all-keys invariant. -/
theorem resize_fold_allKeys (l : List Feature) (Q : PerceptronPredictor)
    (h : allKeys Q) : allKeys (l.foldl resizeStep Q) := by
  induction l generalizing Q with
  | nil => exact h
  | cons a ws ih => exact ih _ (resizeStep_allKeys Q a h)

/-- Keys outside the iterated list are untouched by the resize fold. -/
theorem resize_fold_frame (l : List Feature) (Q : PerceptronPredictor)
    (h : allKeys Q) (f : Feature) (hf : f ∉ l) :
    (l.foldl resizeStep Q).feature_tables f = Q.feature_tables f ∧
    (l.foldl resizeStep Q).table_usage_count f = Q.table_usage_count f := by
  induction l generalizing Q with
  | nil => exact ⟨rfl, rfl⟩
  | cons a ws ih =>
      have hfa : f ≠ a := fun e => hf (e ▸ List.mem_cons_self a ws)
      have hfw : f ∉ ws := fun e => hf (List.mem_cons_of_mem a e)
      have h1 := resizeStep_allKeys Q a h
      obtain ⟨e1, e2⟩ := ih (resizeStep Q a) h1 hfw
      refine ⟨?_, ?_⟩
      · rw [List.foldl_cons, e1, resizeStep_tables Q a h f, if_neg hfa]
      · rw [List.foldl_cons, e2, resizeStep_usage Q a h f, if_neg hfa]

/-- Each key in the iterated (duplicate-free) list is resize-evaluated
    exactly once by the resize fold, reading its pre-fold usage counter,
    and its usage counter is reset. -/
theorem resize_fold_hit (l : List Feature) (Q : PerceptronPredictor)
    (h : allKeys Q) (hnd : l.Nodup) (f : Feature) (hf : f ∈ l) :
    (l.foldl resizeStep Q).feature_tables f =
      some (resizeOne (tableOf Q f) (Q.table_usage_count f)) ∧
    (l.foldl resizeStep Q).table_usage_count f = 0 := by
  induction l generalizing Q with
  | nil => cases hf
  | cons a ws ih =>
      have h1 := resizeStep_allKeys Q a h
      rcases List.mem_cons.1 hf with he | hm
      · subst he
        have hfw : f ∉ ws := (List.nodup_cons.1 hnd).1
        obtain ⟨e1, e2⟩ := resize_fold_frame ws _ h1 f hfw
        refine ⟨?_, ?_⟩
        · rw [List.foldl_cons, e1, resizeStep_tables Q f h f, if_pos rfl]
        · rw [List.foldl_cons, e2, resizeStep_usage Q f h f, if_pos rfl]
      · have hfa : f ≠ a := by
          intro e; subst e; exact (List.nodup_cons.1 hnd).1 hm
        have et : tableOf (resizeStep Q a) f = tableOf Q f := by
          rw [tableOf, resizeStep_tables Q a h f, if_neg hfa, tableOf]
        have eu : (resizeStep Q a).table_usage_count f = Q.table_usage_count f := by
          rw [resizeStep_usage Q a h f, if_neg hfa]
        obtain ⟨e1, e2⟩ := ih (resizeStep Q a) h1 (List.nodup_cons.1 hnd).2 hm
        rw [List.foldl_cons]
        exact ⟨by rw [e1, et, eu], e2⟩

/-- Every feature is in the key enumeration, which is duplicate-free. -/
theorem Feature.mem_all (f : Feature) : f ∈ Feature.all := by
  cases f <;> simp [Feature.all]

theorem Feature.all_nodup : Feature.all.Nodup := by decide

/-- Closed form of update_weights under the all-keys invariant: every
    feature's table gets the one-unit clamp-add at its hashed slot and
    every feature's usage counter is incremented by one. -/
theorem update_weights_spec (P : PerceptronPredictor) (features : Feature → Nat)
    (pcv : Nat) (b : Bool) (h : allKeys P) (f : Feature) :
    (update_weights P features pcv b).feature_tables f =
      some (updatedTable (tableOf P f) (features f) pcv b) ∧
    (update_weights P features pcv b).table_usage_count f =
      P.table_usage_count f + 1 :=
  update_fold_hit features pcv b Feature.all P h Feature.all_nodup f (Feature.mem_all f)

/-- update_weights preserves the all-keys invariant. -/
theorem update_weights_allKeys (P : PerceptronPredictor) (features : Feature → Nat)
    (pcv : Nat) (b : Bool) (h : allKeys P) :
    allKeys (update_weights P features pcv b) :=
  update_fold_allKeys features pcv b Feature.all P h

/-- Closed form of dynamic_resize under the all-keys invariant: every
    feature's table is resize-evaluated against its pre-call usage
    counter, and every usage counter is reset to zero. -/
theorem dynamic_resize_spec (P : PerceptronPredictor) (h : allKeys P) (f : Feature) :
    (dynamic_resize P).feature_tables f =
      some (resizeOne (tableOf P f) (P.table_usage_count f)) ∧
    (dynamic_resize P).table_usage_count f = 0 :=
  resize_fold_hit Feature.all P h Feature.all_nodup f (Feature.mem_all f)

/-- dynamic_resize preserves the all-keys invariant. -/
theorem dynamic_resize_allKeys (P : PerceptronPredictor) (h : allKeys P) :
    allKeys (dynamic_resize P) :=
  resize_fold_allKeys Feature.all P h

/-- Under the all-keys invariant the stateful victim scan equals the pure
    scan over the per-way scores and leaves the predictor unchanged. -/
theorem victimScan_fold_eq (P : PerceptronPredictor) (meta : MetaArray)
    (setIdx ip : Nat) (h : allKeys P) (l : List Nat) (v : Nat) (m : Int) :
    l.foldl (victimStep meta setIdx ip) (v, m, P) =
      ((l.foldl (scanStep (wayScore P meta setIdx ip)) (v, m)).1,
       (l.foldl (scanStep (wayScore P meta setIdx ip)) (v, m)).2, P) := by
  induction l generalizing v m with
  | nil => rfl
  | cons a ws ih =>
      rw [List.foldl_cons, List.foldl_cons]
      have hc := compute_prediction_eq P (extract_features (meta setIdx a) setIdx) ip h
      have hs : victimStep meta setIdx ip (v, m, P) a =
          ((scanStep (wayScore P meta setIdx ip) (v, m) a).1,
           (scanStep (wayScore P meta setIdx ip) (v, m) a).2, P) := by
        simp [victimStep, scanStep, hc, wayScore]
        by_cases hb : leakyRelu (rawSum P (extract_features (meta setIdx a) setIdx) ip) < m ∧
            leakyRelu (rawSum P (extract_features (meta setIdx a) setIdx) ip) < confidence_threshold
        · simp [hb]
        · simp [hb]
      rw [hs]
      rcases hsc : scanStep (wayScore P meta setIdx ip) (v, m) a with ⟨v2, m2⟩
      exact ih v2 m2

/-- The running minimum of the pure scan never increases. -/
theorem scan_snd_le (s : Nat → Int) (l : List Nat) (a : Nat × Int) :
    (l.foldl (scanStep s) a).2 ≤ a.2 := by
  induction l generalizing a with
  | nil => exact le_refl _
  | cons w ws ih =>
      rw [List.foldl_cons]
      refine le_trans (ih (scanStep s a w)) ?_
      unfold scanStep
      split_ifs with hb
      · exact le_of_lt hb.1
      · exact le_refl _

/-- The pure scan's final minimum is a lower bound on the score of every
    listed way whose score is below the threshold. -/
theorem scan_min (s : Nat → Int) (l : List Nat) (a : Nat × Int) :
    ∀ w ∈ l, s w < confidence_threshold → (l.foldl (scanStep s) a).2 ≤ s w := by
  induction l generalizing a with
  | nil => intro w hw; cases hw
  | cons x ws ih =>
      intro w hw hthr
      rw [List.foldl_cons]
      rcases List.mem_cons.1 hw with he | hm
      · subst he
        refine le_trans (scan_snd_le s ws (scanStep s a w)) ?_
        unfold scanStep
        split_ifs with hb
        · exact le_refl _
        · rw [not_and_or] at hb
          rcases hb with hb | hb
          · exact le_of_not_lt hb
          · exact absurd hthr hb
      · exact ih (scanStep s a x) w hm hthr

/-- The pure scan either returns its accumulator unchanged or a listed way
    whose score equals the final minimum and is below the threshold. -/
theorem scan_cases (s : Nat → Int) (l : List Nat) (a : Nat × Int) :
    l.foldl (scanStep s) a = a ∨
      ((l.foldl (scanStep s) a).1 ∈ l ∧
       s (l.foldl (scanStep s) a).1 = (l.foldl (scanStep s) a).2 ∧
       (l.foldl (scanStep s) a).2 < confidence_threshold) := by
  induction l generalizing a with
  | nil => exact Or.inl rfl
  | cons x ws ih =>
      rw [List.foldl_cons]
      rcases ih (scanStep s a x) with he | ⟨hm, he, hthr⟩
      · rw [he]
        unfold scanStep
        split_ifs with hb
        · exact Or.inr ⟨List.mem_cons_self x ws, rfl, hb.2⟩
        · exact Or.inl rfl
      · exact Or.inr ⟨List.mem_cons_of_mem x hm, he, hthr⟩

/-- When no listed way passes the threshold test, the pure scan is the
    identity. -/
theorem scan_id (s : Nat → Int) (l : List Nat) (a : Nat × Int)
    (h : ∀ w ∈ l, ¬ s w < confidence_threshold) :
    l.foldl (scanStep s) a = a := by
  induction l generalizing a with
  | nil => rfl
  | cons x ws ih =>
      rw [List.foldl_cons]
      have hx : scanStep s a x = a := by
        unfold scanStep
        rw [if_neg]
        intro hb
        exact h x (List.mem_cons_self x ws) hb.2
      rw [hx]
      exact ih a fun w hw => h w (List.mem_cons_of_mem x hw)

/-- The LRU scan's final minimum is a lower bound on every listed way's
    timestamp and on the initial accumulator. -/
theorem lru_min (meta : MetaArray) (setIdx : Nat) (l : List Nat) (a : Nat × Nat) :
    (l.foldl (lruStep meta setIdx) a).2 ≤ a.2 ∧
    ∀ w ∈ l, (l.foldl (lruStep meta setIdx) a).2 ≤
      (meta setIdx w).last_access_timestamp := by
  induction l generalizing a with
  | nil => exact ⟨le_refl _, fun w hw => absurd hw (List.not_mem_nil w)⟩
  | cons x ws ih =>
      obtain ⟨h1, h2⟩ := ih (lruStep meta setIdx a x)
      have hstep : (lruStep meta setIdx a x).2 ≤ a.2 ∧
          (lruStep meta setIdx a x).2 ≤ (meta setIdx x).last_access_timestamp := by
        unfold lruStep
        split_ifs with hb
        · exact ⟨le_of_lt hb, le_refl _⟩
        · exact ⟨le_refl _, le_of_not_lt hb⟩
      constructor
      · rw [List.foldl_cons]; exact le_trans h1 hstep.1
      · intro w hw
        rcases List.mem_cons.1 hw with he | hm
        · subst he
          rw [List.foldl_cons]
          exact le_trans h1 hstep.2
        · rw [List.foldl_cons]; exact h2 w hm

/-- The LRU scan either returns its accumulator unchanged or a listed way
    whose timestamp equals the final minimum. -/
theorem lru_cases (meta : MetaArray) (setIdx : Nat) (l : List Nat) (a : Nat × Nat) :
    l.foldl (lruStep meta setIdx) a = a ∨
      ((l.foldl (lruStep meta setIdx) a).1 ∈ l ∧
       (meta setIdx (l.foldl (lruStep meta setIdx) a).1).last_access_timestamp =
         (l.foldl (lruStep meta setIdx) a).2) := by
  induction l generalizing a with
  | nil => exact Or.inl rfl
  | cons x ws ih =>
      rw [List.foldl_cons]
      rcases ih (lruStep meta setIdx a x) with he | ⟨hm, he⟩
      · rw [he]
        unfold lruStep
        split_ifs with hb
        · exact Or.inr ⟨List.mem_cons_self x ws, rfl⟩
        · exact Or.inl rfl
      · exact Or.inr ⟨List.mem_cons_of_mem x hm, he⟩

/-- The victim scan leaves the predictor state exactly as it was, under
    the all-keys invariant. -/
theorem find_victim_state_eq (P : PerceptronPredictor) (meta : MetaArray)
    (setIdx ip : Nat) (h : allKeys P) :
    (find_victim P meta setIdx ip).2 = P := by
  rw [find_victim, victimScan,
    victimScan_fold_eq P meta setIdx ip h (List.range NUM_WAY) 0 INT32_MAX]
  split_ifs <;> rfl

/-- When no listed way scores below the running minimum, the pure scan is
    the identity. -/
theorem scan_id_of_ge (s : Nat → Int) (l : List Nat) (a : Nat × Int)
    (h : ∀ w ∈ l, ¬ s w < a.2) :
    l.foldl (scanStep s) a = a := by
  induction l with
  | nil => rfl
  | cons x ws ih =>
      rw [List.foldl_cons]
      have hx : scanStep s a x = a := by
        rw [scanStep, if_neg]
        intro hb
        exact h x (List.mem_cons_self x ws) hb.1
      rw [hx]
      exact ih fun w hw => h w (List.mem_cons_of_mem x hw)

/-- A getD read of an all-zero list yields zero at any index. -/
theorem getD_eq_zero_of_all_zero (w : List Int) (h : ∀ x ∈ w, x = 0) (i : Nat) :
    w.getD i 0 = 0 := by
  by_cases hi : i < w.length
  · have he : w.getD i 0 = w[i] := by
      simp [List.getD_eq_getElem?_getD, List.getElem?_eq_getElem, hi]
    rw [he]
    exact h _ (List.getElem_mem hi)
  · simp [List.getD_eq_getElem?_getD, List.getElem?_eq_none (Nat.le_of_not_lt hi)]

/-- A predictor whose stored counters are all zero produces a zero raw
    sum for any feature values. -/
theorem rawSum_zero (P : PerceptronPredictor) (features : Feature → Nat) (pcv : Nat)
    (hkeys : allKeys P)
    (hzero : ∀ f t, P.feature_tables f = some t → ∀ x ∈ t.weights, x = 0) :
    rawSum P features pcv = 0 := by
  have hz : ∀ (f : Feature) (i : Nat), (tableOf P f).weights.getD i 0 = 0 := by
    intro f i
    exact getD_eq_zero_of_all_zero _
      (fun x hx => hzero f _ (tables_eq_some P f hkeys) x hx) i
  simp only [rawSum, Feature.all, List.foldl, hz]
  norm_num

/-- The fresh predictor's stored counters are all zero. -/
theorem start_weights_zero :
    ∀ f t, PerceptronPredictor.start.feature_tables f = some t →
      ∀ x ∈ t.weights, x = 0 := by
  intro f t ht x hx
  have he : t = WeightTable.initial := by
    simpa [PerceptronPredictor.start] using ht.symm
  subst he
  exact List.eq_of_mem_replicate hx

/-- C1: for every call to find_victim, the returned way index is a way
    whose prediction score is strictly below the confidence threshold and
    minimal among all such ways, whenever some way scores below the
    threshold; when no way scores below the threshold the call returns
    exactly the LRU victim, a way whose last-access cycle is oldest; and
    in every case the returned index lies in [0, NUM_WAY).  The timestamp
    hypothesis records that timestamps are uint64 values. -/
theorem C1_find_victim_contract (P : PerceptronPredictor) (meta : MetaArray)
    (setIdx ip : Nat) (hkeys : allKeys P) ( _hset : setIdx < NUM_SET)
    (hts : ∀ way, way < NUM_WAY →
      (meta setIdx way).last_access_timestamp ≤ UINT64_MAX) :
    (find_victim P meta setIdx ip).1 < NUM_WAY ∧
    ((∃ w, w < NUM_WAY ∧ wayScore P meta setIdx ip w < confidence_threshold) →
      wayScore P meta setIdx ip (find_victim P meta setIdx ip).1 <
        confidence_threshold ∧
      ∀ w, w < NUM_WAY → wayScore P meta setIdx ip w < confidence_threshold →
        wayScore P meta setIdx ip (find_victim P meta setIdx ip).1 ≤
          wayScore P meta setIdx ip w) ∧
    ((∀ w, w < NUM_WAY → ¬ wayScore P meta setIdx ip w < confidence_threshold) →
      (find_victim P meta setIdx ip).1 = find_lru_victim meta setIdx ∧
      ∀ w, w < NUM_WAY →
        (meta setIdx (find_victim P meta setIdx ip).1).last_access_timestamp ≤
          (meta setIdx w).last_access_timestamp) := by
  have hv := victimScan_fold_eq P meta setIdx ip hkeys (List.range NUM_WAY) 0 INT32_MAX
  set s := wayScore P meta setIdx ip with hsdef
  set r := (List.range NUM_WAY).foldl (scanStep s) (0, INT32_MAX) with hrdef
  have hfv : find_victim P meta setIdx ip =
      (if r.2 ≥ confidence_threshold then find_lru_victim meta setIdx else r.1, P) := by
    rw [find_victim, victimScan, hv]
    split_ifs <;> rfl
  obtain ⟨hlruA, hlruB⟩ := lru_min meta setIdx (List.range NUM_WAY) (0, UINT64_MAX)
  have hlru : find_lru_victim meta setIdx < NUM_WAY ∧
      ∀ w, w < NUM_WAY →
        (meta setIdx (find_lru_victim meta setIdx)).last_access_timestamp ≤
          (meta setIdx w).last_access_timestamp := by
    rcases lru_cases meta setIdx (List.range NUM_WAY) (0, UINT64_MAX) with he | ⟨hm, he⟩
    · have hv0 : find_lru_victim meta setIdx = 0 := by
        rw [find_lru_victim, he]
      have hmax : ∀ w, w < NUM_WAY →
          (meta setIdx w).last_access_timestamp = UINT64_MAX := by
        intro w hw
        have h1 := hlruB w (List.mem_range.2 hw)
        rw [he] at h1
        exact le_antisymm (hts w hw) h1
      refine ⟨by rw [hv0]; decide, ?_⟩
      intro w hw
      rw [hv0, hmax 0 (by decide), hmax w hw]
    · refine ⟨List.mem_range.1 hm, ?_⟩
      intro w hw
      rw [find_lru_victim, he]
      exact hlruB w (List.mem_range.2 hw)
  refine ⟨?_, ?_, ?_⟩
  · by_cases hex : ∃ w, w < NUM_WAY ∧ s w < confidence_threshold
    · obtain ⟨w, hw, hsw⟩ := hex
      have hmin : r.2 ≤ s w :=
        scan_min s (List.range NUM_WAY) (0, INT32_MAX) w (List.mem_range.2 hw) hsw
      have hr2 : r.2 < confidence_threshold := lt_of_le_of_lt hmin hsw
      have hveq : (find_victim P meta setIdx ip).1 = r.1 := by
        rw [hfv]
        exact if_neg (not_le.2 hr2)
      rcases scan_cases s (List.range NUM_WAY) (0, INT32_MAX) with he | ⟨hm, _, _⟩
      · rw [← hrdef] at he
        rw [he] at hr2
        exact absurd hr2 (by decide)
      · rw [hveq]
        exact List.mem_range.1 hm
    · have hnone : ∀ w ∈ List.range NUM_WAY, ¬ s w < confidence_threshold := by
        intro w hw hlt
        exact hex ⟨w, List.mem_range.1 hw, hlt⟩
      have hid : r = (0, INT32_MAX) :=
        scan_id s (List.range NUM_WAY) (0, INT32_MAX) hnone
      have hveq : (find_victim P meta setIdx ip).1 = find_lru_victim meta setIdx := by
        rw [hfv]
        exact if_pos (by rw [hid]; decide)
      rw [hveq]
      exact hlru.1
  · intro hex
    obtain ⟨w, hw, hsw⟩ := hex
    have hmin : r.2 ≤ s w :=
      scan_min s (List.range NUM_WAY) (0, INT32_MAX) w (List.mem_range.2 hw) hsw
    have hr2 : r.2 < confidence_threshold := lt_of_le_of_lt hmin hsw
    have hveq : (find_victim P meta setIdx ip).1 = r.1 := by
      rw [hfv]
      exact if_neg (not_le.2 hr2)
    rcases scan_cases s (List.range NUM_WAY) (0, INT32_MAX) with he | ⟨hm, hes, hthr⟩
    · rw [← hrdef] at he
      rw [he] at hr2
      exact absurd hr2 (by decide)
    · constructor
      · rw [hveq, hes]
        exact hthr
      · intro w2 hw2 hsw2
        rw [hveq, hes]
        exact scan_min s (List.range NUM_WAY) (0, INT32_MAX) w2
          (List.mem_range.2 hw2) hsw2
  · intro hnone
    have hid : r = (0, INT32_MAX) :=
      scan_id s (List.range NUM_WAY) (0, INT32_MAX)
        (fun w hw => hnone w (List.mem_range.1 hw))
    have hveq : (find_victim P meta setIdx ip).1 = find_lru_victim meta setIdx := by
      rw [hfv]
      exact if_pos (by rw [hid]; decide)
    rw [hveq]
    exact ⟨rfl, hlru.2⟩

/-- Witness for C1 at the fresh predictor and zeroed metadata. -/
theorem C1_witness :
    allKeys PerceptronPredictor.start ∧ (0 : Nat) < NUM_SET ∧
    (∀ way, way < NUM_WAY →
      (MetaArray.start 0 way).last_access_timestamp ≤ UINT64_MAX) ∧
    (find_victim PerceptronPredictor.start MetaArray.start 0 0).1 < NUM_WAY :=
  ⟨allKeys_start, by decide, fun way _ => Nat.zero_le _,
   (C1_find_victim_contract PerceptronPredictor.start MetaArray.start 0 0
     allKeys_start (by decide) (fun way _ => Nat.zero_le _)).1⟩

/-- C7 counterexample: with the all-zero fresh predictor, every way's
    score is 0, which is below the confidence threshold 10, so find_victim
    takes the perceptron path and returns way 0 even though way 1 has a
    strictly older last-access cycle; the LRU fallback (which would return
    way 1) is not exercised.  The claim says the fallback path is taken
    and the oldest-cycle way is selected, which is false here. -/
theorem C7_counterexample :
    (Feature.all.all fun f =>
      (tableOf PerceptronPredictor.start f).weights.all fun x => x == 0) = true ∧
    (find_victim PerceptronPredictor.start metaSkew 0 0).1 = 0 ∧
    find_lru_victim metaSkew 0 = 1 ∧
    (metaSkew 0 1).last_access_timestamp <
      (metaSkew 0 0).last_access_timestamp := by
  refine ⟨by decide, by decide, by decide, by decide⟩

/-- C7 amended: with all-zero predictor state every way scores 0, below
    the confidence threshold, so find_victim takes the perceptron
    (minimum-score) path and returns way 0 — the first way attaining the
    minimal score — regardless of recency; the returned index is still in
    [0, NUM_WAY). -/
theorem C7_amended_zero_state (P : PerceptronPredictor) (meta : MetaArray)
    (setIdx ip : Nat) (hkeys : allKeys P) ( _hset : setIdx < NUM_SET)
    (hzero : ∀ f t, P.feature_tables f = some t → ∀ x ∈ t.weights, x = 0) :
    (find_victim P meta setIdx ip).1 = 0 ∧
    (find_victim P meta setIdx ip).1 < NUM_WAY := by
  have hsc : ∀ way, wayScore P meta setIdx ip way = 0 := by
    intro way
    rw [wayScore, rawSum_zero P _ ip hkeys hzero]
    decide
  have hv := victimScan_fold_eq P meta setIdx ip hkeys (List.range NUM_WAY) 0 INT32_MAX
  have hscan : (List.range NUM_WAY).foldl
      (scanStep (wayScore P meta setIdx ip)) (0, INT32_MAX) = (0, 0) := by
    have h16 : List.range NUM_WAY = 0 :: List.map Nat.succ (List.range 15) := by
      rw [NUM_WAY]
      exact List.range_succ_eq_map 15
    rw [h16, List.foldl_cons]
    have h1 : scanStep (wayScore P meta setIdx ip) (0, INT32_MAX) 0 = (0, 0) := by
      rw [scanStep, hsc 0]
      rw [if_pos]
      exact ⟨by decide, by decide⟩
    rw [h1]
    refine scan_id_of_ge _ _ _ ?_
    intro w _
    rw [hsc w]
    decide
  have hfv : find_victim P meta setIdx ip = (0, P) := by
    rw [find_victim, victimScan, hv, hscan]
    have hc : ¬ (((0 : Nat), (0 : Int), P).2.1 ≥ confidence_threshold) := by
      show ¬ ((0 : Int) ≥ confidence_threshold)
      decide
    rw [if_neg hc]
  rw [hfv]
  exact ⟨rfl, (by decide : (0 : Nat) < NUM_WAY)⟩

/-- Witness for the amended C7 at the fresh predictor and the skewed
    metadata array. -/
theorem C7_witness :
    allKeys PerceptronPredictor.start ∧ (0 : Nat) < NUM_SET ∧
    (∀ f t, PerceptronPredictor.start.feature_tables f = some t →
      ∀ x ∈ t.weights, x = 0) ∧
    (find_victim PerceptronPredictor.start metaSkew 0 0).1 = 0 :=
  ⟨allKeys_start, by decide, start_weights_zero,
   (C7_amended_zero_state PerceptronPredictor.start metaSkew 0 0
     allKeys_start (by decide) start_weights_zero).1⟩

/-- C8: find_victim never mutates predictor state — all weight-table
    contents, table sizes and usage counters are unchanged after the call
    (the returned state equals the input state).  Per-line metadata is
    only ever read by find_victim (the C++ accesses metadata_array through
    a const reference and performs no write), so the embedding does not
    thread it; predictor mutation happens only in the update entry
    point. -/
theorem C8_find_victim_frame (P : PerceptronPredictor) (meta : MetaArray)
    (setIdx ip : Nat) (hkeys : allKeys P) ( _hset : setIdx < NUM_SET) :
    (find_victim P meta setIdx ip).2 = P :=
  find_victim_state_eq P meta setIdx ip hkeys

/-- Witness for C8 at the fresh predictor. -/
theorem C8_witness :
    allKeys PerceptronPredictor.start ∧ (0 : Nat) < NUM_SET ∧
    (find_victim PerceptronPredictor.start MetaArray.start 0 0).2 =
      PerceptronPredictor.start :=
  ⟨allKeys_start, by decide,
   C8_find_victim_frame PerceptronPredictor.start MetaArray.start 0 0
     allKeys_start (by decide)⟩

/-- A clamp into the counter range lands in the counter range. -/
theorem clampInt_bounds (v : Int) :
    MIN_WEIGHT ≤ clampInt v MIN_WEIGHT MAX_WEIGHT ∧
    clampInt v MIN_WEIGHT MAX_WEIGHT ≤ MAX_WEIGHT := by
  unfold clampInt MIN_WEIGHT MAX_WEIGHT
  split_ifs <;> omega

/-- A getD read is the default or a member of the list. -/
theorem getD_zero_or_mem (w : List Int) (i : Nat) :
    w.getD i 0 = 0 ∨ w.getD i 0 ∈ w := by
  by_cases hi : i < w.length
  · right
    have he : w.getD i 0 = w[i] := by
      simp [List.getD_eq_getElem?_getD, List.getElem?_eq_getElem, hi]
    rw [he]
    exact List.getElem_mem hi
  · left
    simp [List.getD_eq_getElem?_getD, List.getElem?_eq_none (Nat.le_of_not_lt hi)]

/-- Members of a resized table are zero-fill or copies of old members. -/
theorem resize_mem (t : WeightTable) (n : Nat) :
    ∀ x ∈ (t.resize n).weights, x = 0 ∨ x ∈ t.weights := by
  have hgen : ∀ (l : List Nat) (acc : List Int),
      (∀ x ∈ acc, x = 0 ∨ x ∈ t.weights) →
      ∀ x ∈ l.foldl (copyStep t.weights n) acc, x = 0 ∨ x ∈ t.weights := by
    intro l
    induction l with
    | nil => intro acc h; exact h
    | cons i is ih =>
        intro acc h
        rw [List.foldl_cons]
        refine ih _ ?_
        intro x hx
        rcases List.mem_or_eq_of_mem_set hx with hx2 | hx2
        · exact h x hx2
        · rcases getD_zero_or_mem t.weights i with h0 | hm
          · exact Or.inl (by rw [hx2, h0])
          · exact Or.inr (by rw [hx2]; exact hm)
  exact hgen (List.range t.size) (List.replicate n 0)
    (fun x hx => Or.inl (List.eq_of_mem_replicate hx))

/-- Members of an updated table are old members or clamped values. -/
theorem updatedTable_mem (t : WeightTable) (v pcv : Nat) (b : Bool) :
    ∀ x ∈ (updatedTable t v pcv b).weights,
      x ∈ t.weights ∨ (MIN_WEIGHT ≤ x ∧ x ≤ MAX_WEIGHT) := by
  intro x hx
  simp only [updatedTable] at hx
  rcases List.mem_or_eq_of_mem_set hx with h | h
  · exact Or.inl h
  · right
    rw [h]
    exact clampInt_bounds _

/-- The fresh predictor satisfies the saturation invariant. -/
theorem weightsInRange_start : weightsInRange PerceptronPredictor.start := by
  intro f t ht x hx
  rw [start_weights_zero f t ht x hx]
  exact ⟨by decide, by decide⟩

/-- update_weights preserves the saturation invariant. -/
theorem weightsInRange_update (P : PerceptronPredictor) (features : Feature → Nat)
    (pcv : Nat) (b : Bool) (hk : allKeys P) (h : weightsInRange P) :
    weightsInRange (update_weights P features pcv b) := by
  intro f t ht x hx
  rw [(update_weights_spec P features pcv b hk f).1] at ht
  injection ht with ht
  subst ht
  rcases updatedTable_mem _ _ _ _ x hx with hm | hb
  · exact h f _ (tables_eq_some P f hk) x hm
  · exact hb

/-- dynamic_resize preserves the saturation invariant. -/
theorem weightsInRange_resize (P : PerceptronPredictor) (hk : allKeys P)
    (h : weightsInRange P) : weightsInRange (dynamic_resize P) := by
  intro f t ht x hx
  rw [(dynamic_resize_spec P hk f).1] at ht
  injection ht with ht
  subst ht
  have hold : ∀ y ∈ (tableOf P f).weights, MIN_WEIGHT ≤ y ∧ y ≤ MAX_WEIGHT :=
    fun y hy => h f _ (tables_eq_some P f hk) y hy
  simp only [resizeOne] at hx
  split_ifs at hx
  · rcases resize_mem _ _ x hx with h0 | hm
    · rw [h0]; exact ⟨by decide, by decide⟩
    · exact hold x hm
  · rcases resize_mem _ _ x hx with h0 | hm
    · rw [h0]; exact ⟨by decide, by decide⟩
    · exact hold x hm
  · exact hold x hx

/-- Reachable predictor states keep all five keys present. -/
theorem reachableW_allKeys (P : PerceptronPredictor) (h : ReachableW P) :
    allKeys P := by
  induction h with
  | start => exact allKeys_start
  | update P features pcv b hP ih =>
      exact update_weights_allKeys P features pcv b ih
  | resize P hP ih => exact dynamic_resize_allKeys P ih

/-- C2: every counter in every weight table lies within
    [MIN_WEIGHT, MAX_WEIGHT] = [-32, 31] in every reachable state — after
    initialization, after any number of update_weights calls of either
    sign, and after any resize evaluation. -/
theorem C2_weights_saturate (P : PerceptronPredictor) (h : ReachableW P) :
    weightsInRange P := by
  induction h with
  | start => exact weightsInRange_start
  | update P features pcv b hP ih =>
      exact weightsInRange_update P features pcv b (reachableW_allKeys P hP) ih
  | resize P hP ih =>
      exact weightsInRange_resize P (reachableW_allKeys P hP) ih

/-- Witness for C2 at the fresh predictor, which is reachable. -/
theorem C2_witness :
    ReachableW PerceptronPredictor.start ∧
    weightsInRange PerceptronPredictor.start :=
  ⟨ReachableW.start,
   C2_weights_saturate PerceptronPredictor.start ReachableW.start⟩

/-- C3 counterexample: on a write miss (type WRITE, hit = false) from the
    all-zero fresh state, the code computes is_correct = hit = false and
    increments the pc-table counter at the hashed slot to +1, whereas the
    claim's correctness contract (hit, or write regardless of hit) calls
    this access correct and so demands a decrement to -1. -/
theorem C3_counterexample :
    (tableOf (update_replacement_state PerceptronPredictor.start MetaArray.start
        0 0 0 0 AccessType.WRITE false 0).1 Feature.pc).weights.getD 0 0 = 1 ∧
    ((1 : Int) ≠ -1) := by
  refine ⟨by decide, by decide⟩

/-- C3 amended: the update path passes is_correct = hit (write accesses
    get no exemption), and update_weights moves each participating
    feature's counter exactly one unit at its hashed slot — decrement when
    the access was a hit, increment otherwise — clamped into the counter
    range. -/
theorem C3_amended_update_rule (P : PerceptronPredictor) (hkeys : allKeys P)
    (meta : MetaArray) (setIdx wayID full_addr ip cc : Nat) (ty : AccessType)
    (hit : Bool) (features : Feature → Nat) (pcv : Nat) (b : Bool) (f : Feature) :
    ((update_replacement_state P meta setIdx wayID full_addr ip ty hit cc).1 =
      dynamic_resize (update_weights P
        (extract_features (touchMeta ip ty full_addr cc) setIdx) ip hit)) ∧
    ((tableOf (update_weights P features pcv b) f).weights =
      (tableOf P f).weights.set
        (hash_feature (features f) pcv (tableOf P f).size)
        (clampInt ((tableOf P f).weights.getD
            (hash_feature (features f) pcv (tableOf P f).size) 0 +
          (if b then -1 else 1)) MIN_WEIGHT MAX_WEIGHT)) := by
  constructor
  · rfl
  · have hs := (update_weights_spec P features pcv b hkeys f).1
    rw [tableOf, hs]
    simp [updatedTable, tableOf]

/-- Witness for the amended C3 at the fresh predictor, a hit access. -/
theorem C3_witness :
    allKeys PerceptronPredictor.start ∧
    ((tableOf (update_weights PerceptronPredictor.start feats0 0 true)
        Feature.pc).weights =
      (tableOf PerceptronPredictor.start Feature.pc).weights.set
        (hash_feature (feats0 Feature.pc) 0
          (tableOf PerceptronPredictor.start Feature.pc).size)
        (clampInt ((tableOf PerceptronPredictor.start Feature.pc).weights.getD
            (hash_feature (feats0 Feature.pc) 0
              (tableOf PerceptronPredictor.start Feature.pc).size) 0 +
          (if true then -1 else 1)) MIN_WEIGHT MAX_WEIGHT)) := by
  have h := C3_amended_update_rule PerceptronPredictor.start allKeys_start
    MetaArray.start 0 0 0 0 0 AccessType.LOAD true feats0 0 true Feature.pc
  exact ⟨allKeys_start, h.2⟩

/-- C4 counterexample: a predictor with counters -25 in the hashed slots
    of two tables gives a raw sum of -50; the code scales it by the float
    0.01f and truncates to int, producing 0 — the sign of the negative sum
    is not preserved, contrary to the claim. -/
theorem C4_counterexample :
    rawSum Pneg feats0 0 = -50 ∧
    (compute_prediction Pneg feats0 0).1 = 0 ∧
    ¬ (compute_prediction Pneg feats0 0).1 < 0 := by
  refine ⟨by decide, by decide, by decide⟩

/-- C4 amended: compute_prediction returns the raw sum when it is
    positive; otherwise it returns the IEEE-754 binary32 product
    0.01f * sum truncated toward zero as an int, which on the domain
    reachable with int8 counters (sums of magnitude at most 160) is 0 for
    sums in (-100, 0] and -1 for sums in [-160, -100] — so the sign of a
    negative sum is preserved only when the sum is at most -100. -/
theorem C4_amended_leaky (P : PerceptronPredictor) (features : Feature → Nat)
    (pcv : Nat) (hkeys : allKeys P) (hlo : -160 ≤ rawSum P features pcv) :
    (0 < rawSum P features pcv →
      (compute_prediction P features pcv).1 = rawSum P features pcv) ∧
    (-100 < rawSum P features pcv → rawSum P features pcv ≤ 0 →
      (compute_prediction P features pcv).1 = 0) ∧
    (rawSum P features pcv ≤ -100 →
      (compute_prediction P features pcv).1 = -1) := by
  rw [compute_prediction_eq P features pcv hkeys]
  refine ⟨?_, ?_, ?_⟩
  · intro h
    show leakyRelu (rawSum P features pcv) = rawSum P features pcv
    rw [leakyRelu, if_pos h]
  · intro h1 h2
    show leakyRelu (rawSum P features pcv) = 0
    rw [leakyRelu, if_neg (not_lt.2 h2), leakyScaled, if_neg]
    omega
  · intro h
    show leakyRelu (rawSum P features pcv) = -1
    rw [leakyRelu, if_neg (by omega), leakyScaled, if_pos (by omega)]

/-- Witness for the amended C4 at the fixture predictor with sum -50. -/
theorem C4_witness :
    allKeys Pneg ∧ ((-160 : Int) ≤ rawSum Pneg feats0 0) ∧
    (compute_prediction Pneg feats0 0).1 = 0 := by
  have hk : allKeys Pneg := by intro f; cases f <;> rfl
  refine ⟨hk, by decide, ?_⟩
  exact (C4_amended_leaky Pneg feats0 0 hk (by decide)).2.1 (by decide) (by decide)

/-- C6 counterexample: the extractor's last_access feature is the raw
    stored last-access cycle (here 5), not a recency difference — at
    current cycle 7 the claimed recency would be 2.  The extractor takes
    no current-cycle input at all, and its fifth feature is the block
    offset, not a block age from a creation cycle (no creation cycle is
    stored). -/
theorem C6_counterexample :
    extract_features mRec 0 Feature.last_access = 5 ∧ ¬ ((5 : Nat) = 7 - 5) := by
  refine ⟨rfl, by decide⟩

/-- C6 amended: for the line touched by the update path, the extractor
    produces exactly five features: the last-touching program counter, the
    set index, the 0/1 write flag, the raw last-access cycle (the stored
    current_cycle, not a difference), and the block offset of the accessed
    address (full_addr mod BLOCK_SIZE); there is no block-age or
    creation-cycle feature. -/
theorem C6_amended_features (P : PerceptronPredictor) (meta : MetaArray)
    (setIdx wayID full_addr ip cc : Nat) (ty : AccessType) (hit : Bool) :
    extract_features
        ((update_replacement_state P meta setIdx wayID full_addr ip ty hit cc).2
          setIdx wayID) setIdx Feature.pc = ip ∧
    extract_features
        ((update_replacement_state P meta setIdx wayID full_addr ip ty hit cc).2
          setIdx wayID) setIdx Feature.setIndex = setIdx ∧
    extract_features
        ((update_replacement_state P meta setIdx wayID full_addr ip ty hit cc).2
          setIdx wayID) setIdx Feature.is_write =
      (if ty = AccessType.WRITE then 1 else 0) ∧
    extract_features
        ((update_replacement_state P meta setIdx wayID full_addr ip ty hit cc).2
          setIdx wayID) setIdx Feature.last_access = cc ∧
    extract_features
        ((update_replacement_state P meta setIdx wayID full_addr ip ty hit cc).2
          setIdx wayID) setIdx Feature.block_offset = full_addr % BLOCK_SIZE := by
  have hm : (update_replacement_state P meta setIdx wayID full_addr ip ty hit cc).2
      setIdx wayID = touchMeta ip ty full_addr cc := by
    show (if setIdx = setIdx ∧ wayID = wayID then touchMeta ip ty full_addr cc
      else meta setIdx wayID) = touchMeta ip ty full_addr cc
    rw [if_pos ⟨rfl, rfl⟩]
  rw [hm]
  refine ⟨rfl, rfl, ?_, rfl, rfl⟩
  by_cases hw : ty = AccessType.WRITE <;>
    simp [extract_features, touchMeta, hw]

/-- A set at one index leaves getD at a different index unchanged. -/
theorem getD_set_ne (l : List Int) (i j : Nat) (hij : i ≠ j) (v : Int) :
    (l.set i v).getD j 0 = l.getD j 0 := by
  simp [List.getD_eq_getElem?_getD, List.getElem?_set_ne, hij]

/-- A set at an in-bounds index is read back by getD. -/
theorem getD_set_self (l : List Int) (i : Nat) (hi : i < l.length) (v : Int) :
    (l.set i v).getD i 0 = v := by
  simp [List.getD_eq_getElem?_getD, List.getElem?_set_self, hi]

/-- The resize copy loop keeps the new vector's length at new_size. -/
theorem copy_fold_length (w : List Int) (n : Nat) (s : Nat) :
    ((List.range s).foldl (copyStep w n) (List.replicate n 0)).length = n := by
  induction s with
  | zero => simp
  | succ k ih =>
      rw [List.range_succ, List.foldl_append, List.foldl_cons, List.foldl_nil,
        copyStep, List.length_set]
      exact ih

/-- A slot of the resized vector no old index maps to keeps its zero
    fill. -/
theorem copy_fold_getD_miss (w : List Int) (n : Nat) (j : Nat) (hj : j < n) :
    ∀ s, (∀ i, i < s → i % n ≠ j) →
      ((List.range s).foldl (copyStep w n) (List.replicate n 0)).getD j 0 = 0 := by
  intro s
  induction s with
  | zero =>
      intro _
      simp [List.getD_eq_getElem?_getD, List.getElem?_replicate, hj]
  | succ k ih =>
      intro h
      rw [List.range_succ, List.foldl_append, List.foldl_cons, List.foldl_nil,
        copyStep, getD_set_ne _ _ _ (h k (Nat.lt_succ_self k))]
      exact ih fun i hi => h i (Nat.lt_succ_of_lt hi)

/-- A slot of the resized vector holds the old value of the largest old
    index that maps to it (later loop iterations overwrite earlier
    ones). -/
theorem copy_fold_getD_hit (w : List Int) (n : Nat) (j : Nat) (hj : j < n) :
    ∀ s i, i < s → i % n = j → (∀ k, k < s → k % n = j → k ≤ i) →
      ((List.range s).foldl (copyStep w n) (List.replicate n 0)).getD j 0 =
        w.getD i 0 := by
  intro s
  induction s with
  | zero =>
      intro i hi _ _
      exact absurd hi (Nat.not_lt_zero i)
  | succ k ih =>
      intro i hi hij hmax
      rw [List.range_succ, List.foldl_append, List.foldl_cons, List.foldl_nil,
        copyStep]
      by_cases he : i = k
      · subst he
        rw [hij]
        exact getD_set_self _ j (by rw [copy_fold_length]; exact hj) _
      · have hik : i < k := lt_of_le_of_ne (Nat.lt_succ_iff.1 hi) he
        have hkn : k % n ≠ j := by
          intro hk
          exact absurd (hmax k (Nat.lt_succ_self k) hk) (not_le.2 hik)
        rw [getD_set_ne _ _ _ hkn]
        exact ih i hik hij fun m hm hmj => hmax m (Nat.lt_succ_of_lt hm) hmj

/-- C5: at every resize evaluation, for each feature's table the size
    doubles when the usage counter exceeds 10 times the size, halves when
    the usage counter is below size / 10 and the size exceeds the initial
    size, and the usage counter is reset to zero regardless; and resize
    writes each old value to slot old_index mod new_size in ascending
    index order (so each slot holds the value of the largest old index
    mapping to it) and keeps the zero fill in slots no old index maps
    to. -/
theorem C5_resize_contract (P : PerceptronPredictor) (hkeys : allKeys P) :
    (∀ f, (P.table_usage_count f > (tableOf P f).size * 10 →
        (tableOf (dynamic_resize P) f).size = (tableOf P f).size * 2) ∧
      (P.table_usage_count f < (tableOf P f).size / 10 →
        (tableOf P f).size > INITIAL_TABLE_SIZE →
        (tableOf (dynamic_resize P) f).size = (tableOf P f).size / 2) ∧
      (dynamic_resize P).table_usage_count f = 0) ∧
    (∀ (t : WeightTable) (n j : Nat), j < n →
      ((∀ i, i < t.size → i % n ≠ j) → (t.resize n).weights.getD j 0 = 0) ∧
      (∀ i, i < t.size → i % n = j → (∀ k, k < t.size → k % n = j → k ≤ i) →
        (t.resize n).weights.getD j 0 = t.weights.getD i 0)) := by
  constructor
  · intro f
    have hspec := dynamic_resize_spec P hkeys f
    have htab : tableOf (dynamic_resize P) f =
        resizeOne (tableOf P f) (P.table_usage_count f) := by
      rw [tableOf, hspec.1]
      rfl
    refine ⟨?_, ?_, hspec.2⟩
    · intro hgrow
      rw [htab, resizeOne, if_pos hgrow]
      rfl
    · intro hshrink hbig
      have hng : ¬ (P.table_usage_count f > (tableOf P f).size * 10) := by
        have hd := Nat.div_le_self (tableOf P f).size 10
        omega
      rw [htab, resizeOne, if_neg hng, if_pos ⟨hshrink, hbig⟩]
      rfl
  · intro t n j hj
    constructor
    · intro hmiss
      show ((List.range t.size).foldl (copyStep t.weights n)
        (List.replicate n 0)).getD j 0 = 0
      exact copy_fold_getD_miss t.weights n j hj t.size hmiss
    · intro i hi hij hmax
      show ((List.range t.size).foldl (copyStep t.weights n)
        (List.replicate n 0)).getD j 0 = t.weights.getD i 0
      exact copy_fold_getD_hit t.weights n j hj t.size i hi hij hmax

/-- Witness for C5 at the fresh predictor and a growth resize of the
    default table. -/
theorem C5_witness :
    allKeys PerceptronPredictor.start ∧
    (dynamic_resize PerceptronPredictor.start).table_usage_count Feature.pc = 0 ∧
    (WeightTable.initial.resize 512).weights.getD 300 0 = 0 := by
  have h := C5_resize_contract PerceptronPredictor.start allKeys_start
  refine ⟨allKeys_start, (h.1 Feature.pc).2.2, ?_⟩
  refine (h.2 WeightTable.initial 512 300 (by decide)).1 ?_
  intro i hi
  have hs : WeightTable.initial.size = 256 := rfl
  rw [hs] at hi
  omega

/-- C10: in every state reachable through the public entry points, every
    feature's weight-table key is present with table size equal to the
    initial size 256, and every usage counter reads 0 between calls: each
    update increments each feature's usage counter to exactly 1 before the
    resize evaluation runs, so the grow condition (usage over 10 times the
    size) and the shrink condition (usage under size / 10 with size above
    the initial size) are never satisfied and no table ever changes
    size. -/
theorem C10_table_size_constant (P : PerceptronPredictor) (meta : MetaArray)
    (h : ReachablePub P meta) :
    ∀ f, ∃ t, P.feature_tables f = some t ∧ t.size = INITIAL_TABLE_SIZE ∧
      P.table_usage_count f = 0 := by
  induction h with
  | start =>
      intro f
      exact ⟨WeightTable.initial, rfl, rfl, rfl⟩
  | reinit P meta hP ih =>
      intro f
      exact ⟨WeightTable.initial, rfl, rfl, rfl⟩
  | victim P meta setIdx ip hP ih =>
      intro f
      have hk : allKeys P := fun g => by
        obtain ⟨t, ht, _, _⟩ := ih g
        rw [ht]
        rfl
      rw [find_victim_state_eq P meta setIdx ip hk]
      exact ih f
  | update P meta setIdx wayID fa ip ty hit cc hP ih =>
      intro f
      have hk : allKeys P := fun g => by
        obtain ⟨t, ht, _, _⟩ := ih g
        rw [ht]
        rfl
      have he : (update_replacement_state P meta setIdx wayID fa ip ty hit cc).1 =
          dynamic_resize (update_weights P
            (extract_features (touchMeta ip ty fa cc) setIdx) ip hit) := rfl
      rw [he]
      have hku : allKeys (update_weights P
          (extract_features (touchMeta ip ty fa cc) setIdx) ip hit) :=
        update_weights_allKeys P _ ip hit hk
      have hspec := dynamic_resize_spec
        (update_weights P (extract_features (touchMeta ip ty fa cc) setIdx) ip hit)
        hku f
      obtain ⟨t0, ht0, hsz, hu⟩ := ih f
      have htOf : tableOf P f = t0 := by
        rw [tableOf, ht0]
        rfl
      have hPuTab : (update_weights P
          (extract_features (touchMeta ip ty fa cc) setIdx) ip hit).feature_tables f =
          some (updatedTable t0
            (extract_features (touchMeta ip ty fa cc) setIdx f) ip hit) := by
        rw [(update_weights_spec P _ ip hit hk f).1, htOf]
      have hPuUsage : (update_weights P
          (extract_features (touchMeta ip ty fa cc) setIdx) ip hit).table_usage_count
            f = 1 := by
        rw [(update_weights_spec P _ ip hit hk f).2, hu]
      have hPuSize : (tableOf (update_weights P
          (extract_features (touchMeta ip ty fa cc) setIdx) ip hit) f).size =
          INITIAL_TABLE_SIZE := by
        rw [tableOf, hPuTab]
        show (updatedTable t0 _ ip hit).size = INITIAL_TABLE_SIZE
        rw [← hsz]
        rfl
      have hc1 : ¬ ((update_weights P
          (extract_features (touchMeta ip ty fa cc) setIdx) ip hit).table_usage_count
            f > (tableOf (update_weights P
          (extract_features (touchMeta ip ty fa cc) setIdx) ip hit) f).size * 10) := by
        rw [hPuUsage, hPuSize]
        decide
      have hc2 : ¬ ((update_weights P
          (extract_features (touchMeta ip ty fa cc) setIdx) ip hit).table_usage_count
            f < (tableOf (update_weights P
          (extract_features (touchMeta ip ty fa cc) setIdx) ip hit) f).size / 10 ∧
          (tableOf (update_weights P
          (extract_features (touchMeta ip ty fa cc) setIdx) ip hit) f).size >
            INITIAL_TABLE_SIZE) := by
        rw [hPuUsage, hPuSize]
        decide
      have hro : resizeOne (tableOf (update_weights P
          (extract_features (touchMeta ip ty fa cc) setIdx) ip hit) f)
          ((update_weights P
            (extract_features (touchMeta ip ty fa cc) setIdx) ip hit).table_usage_count
              f) =
          tableOf (update_weights P
            (extract_features (touchMeta ip ty fa cc) setIdx) ip hit) f := by
        rw [resizeOne, if_neg hc1, if_neg hc2]
      refine ⟨_, hspec.1, ?_, hspec.2⟩
      rw [hro]
      exact hPuSize

/-- Witness for C10 at the program start state. -/
theorem C10_witness :
    ReachablePub PerceptronPredictor.start MetaArray.start ∧
    (∃ t, PerceptronPredictor.start.feature_tables Feature.pc = some t ∧
      t.size = INITIAL_TABLE_SIZE ∧
      PerceptronPredictor.start.table_usage_count Feature.pc = 0) :=
  ⟨ReachablePub.start,
   C10_table_size_constant PerceptronPredictor.start MetaArray.start
     ReachablePub.start Feature.pc⟩

end Pcn
